import Mathlib

/-!
Verification of `event_socket_server/base_server.py` (class `BaseServer`).

The development shallowly embeds the module's data model and operations:

* the timer-heap scheduler (`ScheduledJob`, `schedule`, `unschedule`,
  `_dispatch_event`), including a faithful translation of the CPython
  `heapq.heappush` / `heapq.heappop` algorithm that the source calls,
  parameterized by the comparison the source objects actually provide;
* the output-queue manager (`SendMessage`, `send`, `_nonblock_write`);
* the connection lifecycle (`_accept`, `_nonblock_read`, `_clean_up_client`).

Modelling conventions:

* timestamps (`time.time()` values and delays) are rationals;
* byte buffers are `List ℕ`;
* Python exceptions are explicit: a handler that may raise is given an
  outcome parameter, and the translation of each `try`/`except` block is
  explicit in the control flow;
* the per-connection application callbacks (`_recv_data`, write-completion
  callbacks, scheduled-job functions) are pluggable code outside this
  module; the only aspect of them we model is whether a given invocation
  raises, all other effects being opaque to the server state.
-/

namespace ESS

/-- Python exceptions distinguished by the source's `except` clauses:
`socket.error` (caught by the I/O handlers), `IndexError` (raised by
`queue[0]` on an empty deque, caught nowhere), and a generic `Exception`
raised by application callbacks. -/

inductive PyErr where
  | socketError
  | indexError
  | exception
deriving DecidableEq, Repr

/-! ### Scheduled jobs

`ScheduledJob.__slots__ = ('time', 'func', 'args', 'kwargs', 'cancel', 'dispatched')`.
`func`/`args`/`kwargs` form the callback; the only aspect of the callback
we model is whether invoking it raises (`funcRaises`).

`pyId` models the object's identity (its CPython address).  It matters
because `ScheduledJob` defines **no** `__lt__`/`__cmp__`, so the `<`
comparisons performed inside `heappush`/`heappop` fall back to CPython 2's
default comparison, which orders two instances of the same class by their
addresses (on Python 3 the same comparison would raise `TypeError`
instead).  The address of each allocated object is arbitrary; concrete
counterexamples below pick concrete `pyId` values and therefore exhibit
one possible execution of the program. -/

structure Job where
  pyId : ℕ
  time : ℚ
  funcRaises : Bool
  cancel : Bool
  dispatched : Bool
deriving DecidableEq, Repr

/-- The comparison actually used when the source pushes `ScheduledJob`
objects onto the heap: `ScheduledJob` provides no ordering methods, so
`a < b` is CPython 2's default same-type instance comparison by object
address, modelled by `pyId`.  Note it does not consult `Job.time`. -/

def jobLt (a b : Job) : Bool :=
  a.pyId < b.pyId

/-! ### The CPython `heapq` algorithm

Translated from CPython's `Lib/heapq.py` (`_siftdown`, `_siftup`,
`heappush`, `heappop`).  The loops are expressed with an explicit
structural fuel argument so that the definitions compute by kernel
reduction; each wrapper passes a fuel value that provably exceeds the
number of loop iterations (the `_siftdown` loop strictly decreases `pos`
towards `startpos ≥ 0`, and the `_siftup` loop strictly increases `pos`
below `endpos`), and when the fuel runs out the base case performs exactly
the loop-exit action, so the fueled function agrees with the Python loop. -/

/-- CPython `_siftdown(heap, startpos, pos)` with `newitem = heap[pos]`
read off at entry: while `pos > startpos`, compare `newitem` with the
parent; move the parent down while `newitem < parent`; finally store
`newitem`. -/

def siftdownFuel (lt : α → α → Bool) (newitem : α) (startpos : ℕ) :
    ℕ → List α → ℕ → List α
  | 0, heap, pos => heap.set pos newitem
  | fuel + 1, heap, pos =>
    if startpos < pos then
      let parentpos := (pos - 1) / 2
      let parent := heap.getD parentpos newitem
      if lt newitem parent then
        siftdownFuel lt newitem startpos fuel (heap.set pos parent) parentpos
      else
        heap.set pos newitem
    else
      heap.set pos newitem

/-- CPython `_siftup`'s main loop: bubble the hole at `pos` down to a leaf,
always moving the smaller child up; returns the heap with `newitem`
written at the final hole position, together with that position. -/

def siftupFuel (lt : α → α → Bool) (endpos : ℕ) (newitem : α) :
    ℕ → List α → ℕ → List α × ℕ
  | 0, heap, pos => (heap.set pos newitem, pos)
  | fuel + 1, heap, pos =>
    let childpos := 2 * pos + 1
    if childpos < endpos then
      let rightpos := childpos + 1
      let childpos :=
        if rightpos < endpos &&
            !(lt (heap.getD childpos newitem) (heap.getD rightpos newitem)) then
          rightpos
        else childpos
      siftupFuel lt endpos newitem fuel (heap.set pos (heap.getD childpos newitem)) childpos
    else
      (heap.set pos newitem, pos)

/-- CPython `_siftup(heap, pos)`: read `newitem = heap[pos]`, bubble the
hole down to a leaf, then `_siftdown(heap, pos, finalpos)`. -/

def siftup (lt : α → α → Bool) (heap : List α) (pos : ℕ) : List α :=
  match heap[pos]? with
  | some newitem =>
    let res := siftupFuel lt heap.length newitem heap.length heap pos
    siftdownFuel lt newitem pos res.2 res.1 res.2
  | none => heap

/-- CPython `heappush(heap, item)`: append `item`, then
`_siftdown(heap, 0, len(heap)-1)`. -/

def heappush (lt : α → α → Bool) (heap : List α) (item : α) : List α :=
  siftdownFuel lt item 0 heap.length (heap ++ [item]) heap.length

/-- CPython `heappop(heap)`: `lastelt = heap.pop()`; if the heap is now
empty return `lastelt`, otherwise return the old root after writing
`lastelt` at index 0 and sifting it up.  Returns `none` for the empty heap
(Python raises `IndexError`; the source only pops non-empty heaps). -/

def heappop (lt : α → α → Bool) : List α → Option (α × List α)
  | [] => none
  | [x] => some (x, [])
  | x :: y :: rest =>
    let lastelt := (x :: y :: rest).getLast (by simp)
    some (x, siftup lt (((x :: y :: rest).dropLast).set 0 lastelt) 0)

/-! ### The scheduler operations of `BaseServer`

`schedule`, `unschedule` and `_dispatch_event` guard the heap with
`self._job_queue_lock`; every claim below is about the sequential
behaviour of one lock-protected critical section (plus the callback phase
that runs outside the lock), so the lock itself needs no model. -/

/-- `BaseServer.schedule(delay, func, *args, **kwargs)`:
`job = ScheduledJob(time.time() + delay, func, args, kwargs)`;
`heappush(self._job_queue, job)`; `return job`.  `now` stands for the
`time.time()` call, `pyId` for the address of the freshly allocated job
object, `funcRaises` for the behaviour of `func(*args, **kwargs)`. -/

def schedule (now delay : ℚ) (pyId : ℕ) (funcRaises : Bool) (heap : List Job) :
    Job × List Job :=
  let job : Job :=
    { pyId := pyId, time := now + delay, funcRaises := funcRaises,
      cancel := false, dispatched := false }
  (job, heappush jobLt heap job)

/-- `BaseServer.unschedule(job)`: under the lock, return `False` if
`job.dispatched or job.cancel`, else set `job.cancel = True` and return
`True`.  The pair is (job object after the call, returned bool). -/

def unschedule (job : Job) : Job × Bool :=
  if job.dispatched || job.cancel then (job, false)
  else ({ job with cancel := true }, true)

/-- The `while True` loop inside `BaseServer._dispatch_event`:
`dt = self._job_queue[0].time - t if self._job_queue else 1`;
`if dt > 0: break`; otherwise pop the root, mark it `dispatched`, and
collect it into `tasks` unless it was cancelled.  The loop is expressed
with structural fuel; the wrapper `drainJobs` passes `heap.length`, which
suffices because every iteration pops one element, so the fuel-0 fallback
(returning the current `(tasks, heap, dt)`, the loop-exit action) is only
reached with an empty heap, where the loop would exit anyway with the
same `dt = 1`. -/

def drainFuel (t : ℚ) : ℕ → List Job → List Job → List Job × List Job × ℚ
  | 0, heap, tasks =>
    let dt : ℚ := match heap.head? with | some j => j.time - t | none => 1
    (tasks, heap, dt)
  | fuel + 1, heap, tasks =>
    let dt : ℚ := match heap.head? with | some j => j.time - t | none => 1
    if 0 < dt then (tasks, heap, dt)
    else
      match heappop jobLt heap with
      | some (task, rest) =>
        let task := { task with dispatched := true }
        drainFuel t fuel rest (if task.cancel then tasks else tasks ++ [task])
      | none => (tasks, heap, dt)

/-- The lock-protected phase of `BaseServer._dispatch_event` run at
`t = time.time()`: returns `(tasks, remaining heap, dt at loop exit)`. -/

def drainJobs (t : ℚ) (heap : List Job) : List Job × List Job × ℚ :=
  drainFuel t heap.length heap []

/-- `for task in tasks: task.func(*task.args, **task.kwargs)` — the
callback phase of `_dispatch_event`.  It is wrapped in no `try`, so the
first raising callback propagates; callbacks' other effects are opaque to
the server state and are not modelled. -/

def runTasks : List Job → Except PyErr Unit
  | [] => .ok ()
  | task :: rest => if task.funcRaises then .error .exception else runTasks rest

/-- `BaseServer._dispatch_event` at `t = time.time()`: drain the due
jobs, run their callbacks, then
`if not self._job_queue or dt > 1: dt = 1`; `return dt`. -/

def dispatchEvent (t : ℚ) (heap : List Job) : Except PyErr (List Job × ℚ) :=
  let res := drainJobs t heap
  match runTasks res.1 with
  | .error e => .error e
  | .ok _ =>
    let dt := if res.2.1 = [] ∨ 1 < res.2.2 then 1 else res.2.2
    .ok (res.2.1, dt)

/-! ### Connections, the send queue and the I/O handlers

`BaseServer.__init__` sets up `self._clients = set()` and
`self._send_queue = defaultdict(deque)` keyed by `client.fileno()`.
The readiness-registration methods `_register_read`/`_register_write`
raise `NotImplementedError` in `BaseServer` and are supplied by the
multiplexing backend, which is not part of this module; following the
spec's data model (interest state ∈ {READ, READ+WRITE}), they are
modelled as maintaining the set `wantWrite` of descriptors with write
interest, every active client always having read interest. -/

/-- A transport handle: descriptor plus blocking mode (`setblocking`). -/

structure Conn where
  fd : ℕ
  blocking : Bool
deriving DecidableEq, Repr

/-- The pluggable client object wrapping an accepted transport. -/

structure Client where
  socket : Conn
deriving DecidableEq, Repr

/-- `client.fileno()`. -/

def Client.fileno (c : Client) : ℕ :=
  c.socket.fd

/-- `SendMessage.__slots__ = ('data', 'callback')`.  `callback` is `none`
for `None`; `some r` models a callback whose invocation raises iff `r`
(its other effects are opaque to the server state). -/

structure SendMessage where
  data : List ℕ
  callback : Option Bool
deriving DecidableEq, Repr

/-- The `BaseServer` state the I/O handlers touch: the active client set,
the `fd ↦ deque of SendMessage` mapping (`none` = key absent), and the
backend's write-interest set (modelled from the spec, see above). -/

structure SrvState where
  clients : List Client
  sendQueue : ℕ → Option (List SendMessage)
  wantWrite : List ℕ

/-- Point update of the send-queue mapping (`m[k] = v` / `del m[k]`). -/

def qupdate (m : ℕ → Option (List SendMessage)) (k : ℕ) (v : Option (List SendMessage)) :
    ℕ → Option (List SendMessage) :=
  fun k' => if k' = k then v else m k'

/-- `self._send_queue[fd]` — `defaultdict(deque)` lookup: returns the
existing deque, or inserts and returns a fresh empty one. -/

def sqGet (st : SrvState) (fd : ℕ) : List SendMessage × SrvState :=
  match st.sendQueue fd with
  | some q => (q, st)
  | none => ([], { st with sendQueue := qupdate st.sendQueue fd (some []) })

/-- Modelled from the spec: the backend's `_register_write(client)` adds
the descriptor to the write-interest set. -/

def registerWrite (st : SrvState) (fd : ℕ) : SrvState :=
  if fd ∈ st.wantWrite then st else { st with wantWrite := st.wantWrite ++ [fd] }

/-- Modelled from the spec: the backend's `_register_read(client)` demotes
the descriptor to read-only interest. -/

def registerRead (st : SrvState) (fd : ℕ) : SrvState :=
  { st with wantWrite := st.wantWrite.erase fd }

/-- `BaseServer.send(client, data, callback=None)`:
`self._send_queue[client.fileno()].append(SendMessage(data, callback))`;
`self._register_write(client)`. -/

def send (st : SrvState) (c : Client) (data : List ℕ) (callback : Option Bool) : SrvState :=
  let r := sqGet st c.fileno
  let q2 := some (r.1 ++ [⟨data, callback⟩])
  let st2 := { r.2 with sendQueue := qupdate r.2.sendQueue c.fileno q2 }
  registerWrite st2 c.fileno

/-- `BaseServer._clean_up_client(client, finalize=False)`: delete the
send-queue entry (ignoring `KeyError`), run `client.on_close()` and close
the transport (no modelled server-state effect; the claims only invoke
teardown on clients in the active set, with non-raising close hooks), and
unless `finalize` remove the client from the active set. -/

def cleanUpClient (st : SrvState) (c : Client) (finalize : Bool) : SrvState :=
  let st1 := { st with sendQueue := qupdate st.sendQueue c.fileno none }
  if finalize then st1 else { st1 with clients := st1.clients.erase c }

/-- Observable events of one handler invocation, in program order:
bytes handed to `socket.send`, a write-completion callback invocation,
a `queue.popleft()`, bytes delivered to `client._recv_data`, and a
teardown via `_clean_up_client`. -/

inductive Ev where
  | sent (fd : ℕ) (bytes : List ℕ)
  | callbackRun (fd : ℕ)
  | dequeued (fd : ℕ)
  | handlerDelivered (fd : ℕ) (bytes : List ℕ)
  | tornDown (fd : ℕ)
deriving DecidableEq, Repr

/-- Result of one handler invocation: the new state, the trace of events
in the order they happened, and the exception propagating out of the
handler, if any. -/

structure WResult where
  state : SrvState
  trace : List Ev
  raised : Option PyErr

/-- The tail of `_nonblock_write` after the front message is fully sent
and its callback (if any) returned normally: `queue.popleft()`; if the
queue is now empty, `self._register_read(client)` and
`del self._send_queue[fd]`. -/

def nbwDequeue (st2 : SrvState) (fd : ℕ) (restQ : List SendMessage) (tr : List Ev) :
    WResult :=
  let st3 := { st2 with sendQueue := qupdate st2.sendQueue fd (some restQ) }
  if restQ = [] then
    let st4 := registerRead st3 fd
    { state := { st4 with sendQueue := qupdate st4.sendQueue fd none },
      trace := tr ++ [.dequeued fd], raised := none }
  else
    { state := st3, trace := tr ++ [.dequeued fd], raised := none }

/-- `BaseServer._nonblock_write(client)`, given the outcome of the single
`client._socket.send(top.data)` call: `.error ()` for a `socket.error`,
`.ok cb` for a successful write of `cb` bytes.  The `defaultdict` lookup
inserts an empty deque when the key is absent; `top = queue[0]` then
raises an uncaught `IndexError`.  Otherwise the consumed prefix is
stripped (`top.data = top.data[cb:]`); when the message is finished the
callback (if any) runs — a raising callback is caught, logged and leads
to teardown with an early `return` — and only then is the message
dequeued.  A `socket.error` from the `send` call leads to teardown. -/

def nonblockWrite (st : SrvState) (c : Client) (sendRes : Except Unit ℕ) : WResult :=
  let fd := c.fileno
  let r := sqGet st fd
  match r.1 with
  | [] => { state := r.2, trace := [], raised := some PyErr.indexError }
  | top :: restQ =>
    match sendRes with
    | .error _ =>
      { state := cleanUpClient r.2 c false, trace := [.tornDown fd], raised := none }
    | .ok cb =>
      let sentBytes := top.data.take cb
      let rem := top.data.drop cb
      let q2 := some ({ top with data := rem } :: restQ)
      let st2 := { r.2 with sendQueue := qupdate r.2.sendQueue fd q2 }
      if rem = [] then
        match top.callback with
        | some true =>
          { state := cleanUpClient st2 c false,
            trace := [.sent fd sentBytes, .callbackRun fd, .tornDown fd], raised := none }
        | some false =>
          nbwDequeue st2 fd restQ [.sent fd sentBytes, .callbackRun fd]
        | none =>
          nbwDequeue st2 fd restQ [.sent fd sentBytes]
      else
        { state := st2, trace := [.sent fd sentBytes], raised := none }

/-- `BaseServer._nonblock_read(client)`, given the outcome of
`client._socket.recv(1024)` (`.error ()` for a `socket.error`, `.ok data`
otherwise) and whether `client._recv_data(data)` raises on these bytes.
Every raise site sits inside an `except` clause, so the handler itself
never propagates an exception. -/

def nonblockRead (st : SrvState) (c : Client) (recvRes : Except Unit (List ℕ))
    (handlerRaises : Bool) : WResult :=
  match recvRes with
  | .error _ =>
    { state := cleanUpClient st c false, trace := [.tornDown c.fileno], raised := none }
  | .ok data =>
    if data = [] then
      { state := cleanUpClient st c false, trace := [.tornDown c.fileno], raised := none }
    else if handlerRaises then
      { state := cleanUpClient st c false,
        trace := [.handlerDelivered c.fileno data, .tornDown c.fileno], raised := none }
    else
      { state := st, trace := [.handlerDelivered c.fileno data], raised := none }

/-- `BaseServer._accept()` composed with the backend contract from the
spec (modelled from the spec: the pluggable `ClientClass` factory and the
backend's registration; the base class itself registers no interest, and
per the spec a connection with no send-queue entry and no write interest
has READ-only interest): `conn, address = self._server.accept()` takes
one pending connection; `conn.setblocking(0)`;
`client = self._ClientClass(self, conn)`; `self._clients.add(client)`;
`return client`. -/

def acceptConn (factory : Conn → Client) (st : SrvState) (pending : List Conn) :
    Option (Client × SrvState × List Conn) :=
  match pending with
  | [] => none
  | conn :: rest =>
    let conn := { conn with blocking := false }
    let client := factory conn
    some (client, { st with clients := st.clients ++ [client] }, rest)

/-- A run of consecutive write-readiness events for one connection: each
event invokes `_nonblock_write` with the outcome of that event's
`socket.send`; the run stops early if an invocation propagates an
exception (which would unwind the caller's loop). -/

def runWrites (c : Client) : SrvState → List (Except Unit ℕ) → SrvState × List Ev
  | st, [] => (st, [])
  | st, res :: more =>
    let w := nonblockWrite st c res
    match w.raised with
    | some _ => (w.state, w.trace)
    | none =>
      let r := runWrites c w.state more
      (r.1, w.trace ++ r.2)

/-- All bytes handed to the transport in a trace, in order. -/

def writtenBytes : List Ev → List ℕ
  | [] => []
  | Ev.sent _ b :: rest => b ++ writtenBytes rest
  | _ :: rest => writtenBytes rest

/-- The bytes still queued for a descriptor: concatenation of the `data`
of its pending messages (`[]` when the key is absent). -/

def remaining (st : SrvState) (fd : ℕ) : List ℕ :=
  match st.sendQueue fd with
  | none => []
  | some q => (q.map SendMessage.data).flatten

/-- Sample client on descriptor 1, used by the closed witnesses. -/

def sampleClient : Client :=
  ⟨⟨1, false⟩⟩

/-- Sample state with one active client and nothing queued. -/

def sampleIdle : SrvState :=
  { clients := [sampleClient], sendQueue := fun _ => none, wantWrite := [] }

/-- Sample state whose client has one queued two-byte message with a
non-raising completion callback. -/

def sampleQueued : SrvState :=
  { clients := [sampleClient],
    sendQueue := fun k => if k = 1 then some [⟨[7, 8], some false⟩] else none,
    wantWrite := [1] }

/-! ### List helper lemmas for the heap algorithm -/

theorem set_of_getElem? {l : List α} {i : ℕ} {a : α} (h : l[i]? = some a) :
    l.set i a = l := by
  induction l generalizing i with
  | nil => simp at h
  | cons x xs ih =>
    cases i with
    | zero => simp_all
    | succ i' => simpa using ih (by simpa using h)

theorem cons_set_swap_perm (a b : α) :
    ∀ (l : List α) (k : ℕ), k < l.length →
      (a :: l.set k b).Perm (b :: l.set k a)
  | [], k, hk => by simp at hk
  | x :: xs, 0, _ => by
    simpa using List.Perm.swap b a xs
  | x :: xs, k + 1, hk => by
    have ih := cons_set_swap_perm a b xs k (by simpa using hk)
    have h1 : (a :: x :: xs.set k b).Perm (x :: a :: xs.set k b) := List.Perm.swap x a _
    have h2 : (x :: a :: xs.set k b).Perm (x :: b :: xs.set k a) := List.Perm.cons x ih
    have h3 : (x :: b :: xs.set k a).Perm (b :: x :: xs.set k a) := List.Perm.swap b x _
    simpa using (h1.trans h2).trans h3

theorem set_set_swap_perm :
    ∀ (l : List α) (i j : ℕ), i < l.length → j < l.length → i ≠ j →
      ∀ (a b : α), ((l.set i a).set j b).Perm ((l.set j a).set i b)
  | [], i, _, hi, _, _, _, _ => by simp at hi
  | x :: xs, 0, 0, _, _, hne, _, _ => absurd rfl hne
  | x :: xs, 0, j + 1, _, hj, _, a, b => by
    simpa using cons_set_swap_perm a b xs j (by simpa using hj)
  | x :: xs, i + 1, 0, hi, _, _, a, b => by
    simpa using cons_set_swap_perm b a xs i (by simpa using hi)
  | x :: xs, i + 1, j + 1, hi, hj, hne, a, b => by
    have ih := set_set_swap_perm xs i j (by simpa using hi) (by simpa using hj)
      (fun h => hne (by simp [h])) a b
    simpa using List.Perm.cons x ih

/-! ### Conservation lemmas for the heap operations -/

theorem siftdownFuel_length (lt : α → α → Bool) (ni : α) (s : ℕ) :
    ∀ (fuel : ℕ) (heap : List α) (pos : ℕ),
      (siftdownFuel lt ni s fuel heap pos).length = heap.length
  | 0, heap, pos => by simp [siftdownFuel]
  | fuel + 1, heap, pos => by
    simp only [siftdownFuel]
    split
    · split
      · rw [siftdownFuel_length lt ni s fuel]
        simp
      · simp
    · simp

theorem siftdownFuel_perm (lt : α → α → Bool) (ni : α) (s : ℕ) :
    ∀ (fuel : ℕ) (heap : List α) (pos : ℕ), pos < heap.length →
      (siftdownFuel lt ni s fuel heap pos).Perm (heap.set pos ni)
  | 0, heap, pos, _ => by simp [siftdownFuel]
  | fuel + 1, heap, pos, hpos => by
    by_cases hs : s < pos
    · have hppos : (pos - 1) / 2 < pos := by omega
      have hplen : (pos - 1) / 2 < heap.length := lt_trans hppos hpos
      have hgetD : heap.getD ((pos - 1) / 2) ni = heap[(pos - 1) / 2] := by
        simp [List.getD_eq_getElem?_getD, List.getElem?_eq_getElem hplen]
      by_cases hlt : lt ni (heap.getD ((pos - 1) / 2) ni)
      · have hrec : siftdownFuel lt ni s (fuel + 1) heap pos
            = siftdownFuel lt ni s fuel (heap.set pos (heap.getD ((pos - 1) / 2) ni))
                ((pos - 1) / 2) := by
          rw [siftdownFuel, if_pos hs, if_pos hlt]
        have h1 := siftdownFuel_perm lt ni s fuel
          (heap.set pos (heap.getD ((pos - 1) / 2) ni)) ((pos - 1) / 2)
          (by simpa using hplen)
        have h2 := set_set_swap_perm heap pos ((pos - 1) / 2) hpos hplen
          (Nat.ne_of_gt hppos) (heap.getD ((pos - 1) / 2) ni) ni
        have h3 : heap.set ((pos - 1) / 2) (heap.getD ((pos - 1) / 2) ni) = heap := by
          rw [hgetD]
          exact set_of_getElem? (List.getElem?_eq_getElem hplen)
        rw [hrec]
        have h4 := h1.trans h2
        rw [h3] at h4
        exact h4
      · have heq : siftdownFuel lt ni s (fuel + 1) heap pos = heap.set pos ni := by
          rw [siftdownFuel, if_pos hs, if_neg hlt]
        rw [heq]
    · have heq : siftdownFuel lt ni s (fuel + 1) heap pos = heap.set pos ni := by
        rw [siftdownFuel, if_neg hs]
      rw [heq]

theorem siftupFuel_succ (lt : α → α → Bool) (ni : α) (endpos fuel : ℕ)
    (heap : List α) (pos : ℕ) :
    siftupFuel lt endpos ni (fuel + 1) heap pos =
      if 2 * pos + 1 < endpos then
        siftupFuel lt endpos ni fuel
          (heap.set pos (heap.getD
            (if 2 * pos + 2 < endpos
                && !(lt (heap.getD (2 * pos + 1) ni) (heap.getD (2 * pos + 2) ni)) then
              2 * pos + 2
            else 2 * pos + 1) ni))
          (if 2 * pos + 2 < endpos
              && !(lt (heap.getD (2 * pos + 1) ni) (heap.getD (2 * pos + 2) ni)) then
            2 * pos + 2
          else 2 * pos + 1)
      else (heap.set pos ni, pos) := rfl

theorem siftupFuel_spec (lt : α → α → Bool) (ni : α) :
    ∀ (fuel : ℕ) (heap : List α) (pos : ℕ), pos < heap.length →
      (siftupFuel lt heap.length ni fuel heap pos).1.Perm (heap.set pos ni) ∧
      (siftupFuel lt heap.length ni fuel heap pos).2 < heap.length ∧
      ((siftupFuel lt heap.length ni fuel heap pos).1)[
          (siftupFuel lt heap.length ni fuel heap pos).2]? = some ni ∧
      (siftupFuel lt heap.length ni fuel heap pos).1.length = heap.length
  | 0, heap, pos, hpos => by
    refine ⟨by simp [siftupFuel], by simpa [siftupFuel] using hpos, ?_, by simp [siftupFuel]⟩
    simpa [siftupFuel] using List.getElem?_set_self (by simpa using hpos)
  | fuel + 1, heap, pos, hpos => by
    rw [siftupFuel_succ]
    by_cases hcp : 2 * pos + 1 < heap.length
    · rw [if_pos hcp]
      obtain ⟨cp, hif, hcpl, hposcp⟩ :
          ∃ cp, (if 2 * pos + 2 < heap.length
              && !(lt (heap.getD (2 * pos + 1) ni) (heap.getD (2 * pos + 2) ni)) then
            2 * pos + 2
          else 2 * pos + 1) = cp ∧ cp < heap.length ∧ pos < cp := by
        by_cases hc : (2 * pos + 2 < heap.length
            && !(lt (heap.getD (2 * pos + 1) ni) (heap.getD (2 * pos + 2) ni))) = true
        · refine ⟨2 * pos + 2, if_pos hc, ?_, by omega⟩
          have := hc
          simp only [Bool.and_eq_true, decide_eq_true_eq] at this
          exact this.1
        · exact ⟨2 * pos + 1, if_neg hc, hcp, by omega⟩
      rw [hif]
      have hlen' : (heap.set pos (heap.getD cp ni)).length = heap.length := by simp
      rw [← hlen']
      obtain ⟨ihp, ihlt, ihget, ihlen⟩ := siftupFuel_spec lt ni fuel
        (heap.set pos (heap.getD cp ni)) cp (by simpa using hcpl)
      refine ⟨?_, ihlt, ihget, ihlen⟩
      have hgetD : heap.getD cp ni = heap[cp] := by
        simp [List.getD_eq_getElem?_getD, List.getElem?_eq_getElem hcpl]
      have hswap := set_set_swap_perm heap pos cp hpos hcpl (Nat.ne_of_lt hposcp)
        (heap.getD cp ni) ni
      have hid : heap.set cp (heap.getD cp ni) = heap := by
        rw [hgetD]
        exact set_of_getElem? (List.getElem?_eq_getElem hcpl)
      have h4 := ihp.trans hswap
      rw [hid] at h4
      exact h4
    · rw [if_neg hcp]
      refine ⟨by simp, by simpa using hpos, ?_, by simp⟩
      simpa using List.getElem?_set_self (by simpa using hpos)

theorem siftup_perm (lt : α → α → Bool) (heap : List α) (pos : ℕ)
    (hpos : pos < heap.length) :
    (siftup lt heap pos).Perm heap ∧ (siftup lt heap pos).length = heap.length := by
  have hget : heap[pos]? = some heap[pos] := List.getElem?_eq_getElem hpos
  obtain ⟨p1, p2, p3, p4⟩ := siftupFuel_spec lt heap[pos] heap.length heap pos hpos
  have hun : siftup lt heap pos
      = siftdownFuel lt heap[pos] pos
          (siftupFuel lt heap.length heap[pos] heap.length heap pos).2
          (siftupFuel lt heap.length heap[pos] heap.length heap pos).1
          (siftupFuel lt heap.length heap[pos] heap.length heap pos).2 := by
    rw [siftup, hget]
  have hsd := siftdownFuel_perm lt heap[pos] pos
    (siftupFuel lt heap.length heap[pos] heap.length heap pos).2
    (siftupFuel lt heap.length heap[pos] heap.length heap pos).1
    (siftupFuel lt heap.length heap[pos] heap.length heap pos).2
    (by rw [p4]; exact p2)
  have hid1 : (siftupFuel lt heap.length heap[pos] heap.length heap pos).1.set
      (siftupFuel lt heap.length heap[pos] heap.length heap pos).2 heap[pos]
      = (siftupFuel lt heap.length heap[pos] heap.length heap pos).1 :=
    set_of_getElem? p3
  have hid2 : heap.set pos heap[pos] = heap := set_of_getElem? hget
  rw [hid1] at hsd
  have hperm := (hsd.trans p1)
  rw [hid2] at hperm
  constructor
  · rw [hun]
    exact hperm
  · rw [hun, siftdownFuel_length, p4]

theorem heappush_perm (lt : α → α → Bool) (heap : List α) (item : α) :
    (heappush lt heap item).Perm (heap ++ [item]) := by
  have h := siftdownFuel_perm lt item 0 heap.length (heap ++ [item]) heap.length (by simp)
  have h2 : (heap ++ [item]).set heap.length item = heap ++ [item] :=
    set_of_getElem? (List.getElem?_concat_length heap item)
  rw [heappush]
  rwa [h2] at h

theorem heappop_ne_nil (lt : α → α → Bool) {heap : List α} (h : heap ≠ []) :
    ∃ x rest, heappop lt heap = some (x, rest) := by
  match heap with
  | [x] => exact ⟨x, [], rfl⟩
  | x :: y :: rest => exact ⟨_, _, rfl⟩

theorem heappop_spec (lt : α → α → Bool) :
    ∀ {heap : List α} {x : α} {rest : List α},
      heappop lt heap = some (x, rest) →
      heap.head? = some x ∧ rest.Perm heap.tail ∧ rest.length + 1 = heap.length := by
  intro heap x rest h
  match heap with
  | [] => simp [heappop] at h
  | [a] =>
    simp only [heappop, Option.some_inj, Prod.mk.injEq] at h
    obtain ⟨h1, h2⟩ := h
    subst h1
    subst h2
    simp
  | a :: b :: t =>
    simp only [heappop, Option.some_inj, Prod.mk.injEq] at h
    obtain ⟨h1, h2⟩ := h
    subst h1
    subst h2
    have hL : (a :: b :: t).getLast (by simp) = (b :: t).getLast (by simp) := by
      rw [List.getLast_cons]
    have hdrop : (a :: b :: t).dropLast = a :: (b :: t).dropLast := by
      simp
    have hset : ((a :: b :: t).dropLast).set 0 ((a :: b :: t).getLast (by simp))
        = (b :: t).getLast (by simp) :: (b :: t).dropLast := by
      rw [hdrop, hL]
      simp
    have hlen0 : 0 < (((a :: b :: t).dropLast).set 0
        ((a :: b :: t).getLast (by simp))).length := by
      simp
    obtain ⟨sp, sl⟩ := siftup_perm lt _ 0 hlen0
    refine ⟨by simp, ?_, ?_⟩
    · have htailperm : ((b :: t).getLast (by simp) :: (b :: t).dropLast).Perm (b :: t) := by
        have := List.perm_append_singleton ((b :: t).getLast (by simp)) ((b :: t).dropLast)
        have happ : (b :: t).dropLast ++ [(b :: t).getLast (by simp)] = b :: t :=
          List.dropLast_append_getLast (by simp)
        rw [happ] at this
        exact this.symm
      have := sp
      rw [hset] at this sl
      exact this.trans htailperm
    · rw [hset] at sl
      rw [hset, sl]
      simp

/-- What one run of the `_dispatch_event` loop guarantees, for any fuel at
least `heap.length`: the collected tasks extend the accumulator with jobs
that are due (`time ≤ t`), uncancelled and marked dispatched, and the
object identities of the collected tasks together with the remaining heap
form a sub-multiset of the original heap's identities. -/

theorem drainFuel_spec (t : ℚ) :
    ∀ (fuel : ℕ) (heap tasks : List Job), heap.length ≤ fuel →
      ∃ nt, (drainFuel t fuel heap tasks).1 = tasks ++ nt ∧
        (∀ j ∈ nt, j.time ≤ t ∧ j.cancel = false ∧ j.dispatched = true) ∧
        ((nt.map Job.pyId) ++ (drainFuel t fuel heap tasks).2.1.map Job.pyId).Subperm
          (heap.map Job.pyId)
  | 0, heap, tasks, hfuel => by
    have : heap = [] := List.length_eq_zero.mp (Nat.le_zero.mp hfuel)
    subst this
    exact ⟨[], by simp [drainFuel], by simp, by simp [drainFuel]⟩
  | fuel + 1, heap, tasks, hfuel => by
    match heap with
    | [] =>
      refine ⟨[], ?_, by simp, ?_⟩ <;> simp [drainFuel]
    | h :: tl =>
      by_cases hdt : 0 < h.time - t
      · have hun : drainFuel t (fuel + 1) (h :: tl) tasks = (tasks, h :: tl, h.time - t) := by
          simp only [drainFuel, List.head?_cons]
          rw [if_pos hdt]
        rw [hun]
        exact ⟨[], by simp, by simp, by simpa using List.Subperm.refl (h.pyId :: tl.map Job.pyId)⟩
      · obtain ⟨x, rest, hpop⟩ := heappop_ne_nil jobLt (List.cons_ne_nil h tl)
        obtain ⟨hhead, hrestperm, hrestlen⟩ := heappop_spec jobLt hpop
        have hx : x = h := by simpa using hhead.symm
        subst hx
        have hun : drainFuel t (fuel + 1) (x :: tl) tasks
            = drainFuel t fuel rest
                (if x.cancel then tasks else tasks ++ [{ x with dispatched := true }]) := by
          simp only [drainFuel, List.head?_cons]
          rw [if_neg hdt, hpop]
        have hrl : rest.length ≤ fuel := by
          simp at hrestlen hfuel
          omega
        have htime : x.time ≤ t := by linarith [le_of_not_lt hdt]
        have hmapperm : (rest.map Job.pyId).Perm (tl.map Job.pyId) := by
          simpa using hrestperm.map Job.pyId
        by_cases hc : x.cancel
        · rw [hun, if_pos hc]
          obtain ⟨nt, hT, hprops, hsub⟩ := drainFuel_spec t fuel rest tasks hrl
          refine ⟨nt, hT, hprops, ?_⟩
          refine hsub.trans (hmapperm.subperm.trans ?_)
          simpa using (List.sublist_cons_self x.pyId (tl.map Job.pyId)).subperm
        · rw [hun, if_neg hc]
          obtain ⟨nt, hT, hprops, hsub⟩ := drainFuel_spec t fuel rest
            (tasks ++ [{ x with dispatched := true }]) hrl
          refine ⟨{ x with dispatched := true } :: nt, by simpa using hT, ?_, ?_⟩
          · intro j hj
            rcases List.mem_cons.mp hj with hj | hj
            · subst hj
              exact ⟨htime, by simpa using hc, rfl⟩
            · exact hprops j hj
          · have h1 : (x.pyId :: ((nt.map Job.pyId)
                ++ (drainFuel t fuel rest (tasks ++ [{ x with dispatched := true }])).2.1.map
                    Job.pyId)).Subperm (x.pyId :: rest.map Job.pyId) :=
              (List.subperm_cons x.pyId).mpr hsub
            have h2 : (x.pyId :: rest.map Job.pyId).Perm (x.pyId :: tl.map Job.pyId) :=
              hmapperm.cons x.pyId
            simpa using h1.trans h2.subperm

/-- `runTasks` raises exactly when some collected task's callback raises,
and the propagated error is that exception. -/

theorem runTasks_error_iff :
    ∀ ts : List Job, runTasks ts = .error PyErr.exception ↔ ∃ j ∈ ts, j.funcRaises = true
  | [] => by simp [runTasks]
  | task :: rest => by
    by_cases hf : task.funcRaises
    · simp [runTasks, hf]
    · rw [runTasks, if_neg hf, runTasks_error_iff rest]
      simp [hf]

/-! ### Claims about the scheduler -/

/-- **C1** (refuted; the code contradicts the spec's clear intent).
The claim says `schedule` keeps the job heap ordered by `fire_time` with
insertion-order tie-break, so equal-`fire_time` jobs dispatch in the order
scheduled.  In the code `ScheduledJob` defines no comparison methods, so
the heap is ordered by CPython 2's default instance comparison — the
objects' addresses (`pyId`), which are arbitrary.  This run schedules two
jobs with the same fire time 5, the first allocated at address 10, the
second at address 3 (a perfectly possible allocation); `tick` at time 5
dispatches the *second*-scheduled job first, i.e. in address order, not
insertion order. -/

theorem equal_fire_time_jobs_dispatch_in_address_order :
    (schedule 0 5 10 false []).1.time = (schedule 0 5 3 false ((schedule 0 5 10 false []).2)).1.time ∧
    (drainJobs 5 ((schedule 0 5 3 false ((schedule 0 5 10 false []).2)).2)).1.map Job.pyId
      = [3, 10] := by
  constructor
  · norm_num [schedule]
  · norm_num [drainJobs, drainFuel, schedule, heappush, heappop, siftup, siftupFuel,
      siftdownFuel, jobLt]

/-- **C2** (confirmed).  A job made by `schedule(d, action)` with `d ≥ 0`
has `fire_time = now + d ≥ now`; and one `tick` (`_dispatch_event`) at
time `now`, on a heap of jobs with pairwise distinct object identities,
invokes only jobs with `fire_time ≤ now`, never invokes a job whose
`cancel` flag is set (such a job is popped but not collected), marks every
invoked job `dispatched`, invokes no job twice, and removes every invoked
job from the heap — so a dispatched job can never be re-invoked by a later
tick. -/

theorem scheduler_fires_only_due_uncancelled_jobs_at_most_once
    (t0 d now : ℚ) (pid : ℕ) (fr : Bool) (h0 heap : List Job)
    (hd : 0 ≤ d) (hnd : (heap.map Job.pyId).Nodup) :
    (schedule t0 d pid fr h0).1.time = t0 + d ∧
    t0 ≤ (schedule t0 d pid fr h0).1.time ∧
    (∀ j ∈ (drainJobs now heap).1, j.time ≤ now ∧ j.cancel = false ∧ j.dispatched = true) ∧
    ((drainJobs now heap).1.map Job.pyId).Nodup ∧
    (∀ j ∈ (drainJobs now heap).1, j.pyId ∉ ((drainJobs now heap).2.1.map Job.pyId)) := by
  obtain ⟨nt, hT, hprops, hsub⟩ := drainFuel_spec now heap.length heap [] (le_refl _)
  have hT' : (drainJobs now heap).1 = nt := by simpa [drainJobs] using hT
  have hnodup : ((nt.map Job.pyId) ++ (drainJobs now heap).2.1.map Job.pyId).Nodup := by
    obtain ⟨l, hlperm, hlsub⟩ := hsub
    exact hlperm.nodup (hlsub.nodup hnd)
  rw [List.nodup_append] at hnodup
  refine ⟨by simp [schedule], by simp [schedule]; linarith, ?_, ?_, ?_⟩
  · rw [hT']
    exact hprops
  · rw [hT']
    exact hnodup.1
  · intro j hj
    rw [hT'] at hj
    exact hnodup.2.2 (List.mem_map_of_mem Job.pyId hj)

/-- Closed witness for C2: a single due job with identity 5 scheduled for
time 0 is dispatched exactly once by a tick at time 0. -/

theorem scheduler_fires_only_due_uncancelled_jobs_at_most_once_witness :
    ((drainJobs 0 [⟨5, 0, false, false, false⟩]).1.map Job.pyId).Nodup :=
  (scheduler_fires_only_due_uncancelled_jobs_at_most_once 0 0 0 7 false []
    [⟨5, 0, false, false, false⟩] (le_refl 0) (by decide)).2.2.2.1

/-- **C3** (refuted; same root cause as C1).  The claim says `tick`
returns 1 when the heap is empty or the next deadline is over 1 away, and
otherwise the remaining delay to the next deadline.  Because the heap is
ordered by object address, the root need not be the earliest job: here the
first job (address 1, fire time 10) sits at the root above the second
(address 9, fire time 2).  A tick at time 3/2 sees `dt = 10 - 3/2 > 1`
and returns the clamp 1, although the true next deadline is only
`2 - 3/2 = 1/2` away, so the claimed return value would be 1/2. -/

theorem tick_timeout_ignores_nearest_deadline :
    dispatchEvent (3/2) ((schedule 0 2 9 false ((schedule 0 10 1 false []).2)).2)
      = .ok ([⟨1, 10, false, false, false⟩, ⟨9, 2, false, false, false⟩], 1) ∧
    (⟨9, 2, false, false, false⟩ : Job).time - 3/2 = 1/2 ∧
    ((1 : ℚ)/2 < 1 ∧ (0 : ℚ) < 1/2 ∧ (1 : ℚ)/2 ≠ 1) := by
  refine ⟨?_, by norm_num, by norm_num⟩
  norm_num [dispatchEvent, drainJobs, drainFuel, schedule, heappush, heappop, siftup,
    siftupFuel, siftdownFuel, jobLt, runTasks]

/-- **C7** (confirmed).  `_dispatch_event` runs the collected callbacks
with no surrounding `try`, so it raises exactly when one of the invoked
job callbacks raises: the exception propagates out of the tick instead of
being caught and isolated the way connection-handler exceptions are. -/

theorem job_exceptions_propagate_out_of_tick (now : ℚ) (heap : List Job) :
    dispatchEvent now heap = .error PyErr.exception ↔
      ∃ j ∈ (drainJobs now heap).1, j.funcRaises = true := by
  rw [← runTasks_error_iff]
  cases hrt : runTasks (drainJobs now heap).1 <;> simp [dispatchEvent, hrt]

/-- Closed witness for C7: a due job whose callback raises makes the tick
itself propagate the exception. -/

theorem job_exceptions_propagate_out_of_tick_witness :
    dispatchEvent 0 [⟨5, 0, true, false, false⟩] = .error PyErr.exception :=
  (job_exceptions_propagate_out_of_tick 0 [⟨5, 0, true, false, false⟩]).mpr
    ⟨⟨5, 0, true, false, true⟩,
      by simp [drainJobs, drainFuel, heappop, siftup, siftupFuel, siftdownFuel, jobLt],
      rfl⟩

/-- **C8** (confirmed).  `unschedule(handle)` returns `false` when the job
is already dispatched or already cancelled, and otherwise sets the
`cancel` marker and returns `true`; hence it returns `true` at most once
per job (a second call, or any call after the dispatcher has set
`dispatched`, returns `false`). -/

theorem unschedule_returns_true_exactly_once_before_dispatch (job : Job) :
    (unschedule job).2 = (!job.dispatched && !job.cancel) ∧
    (unschedule job).1.cancel = (job.cancel || !job.dispatched) ∧
    (unschedule job).1.dispatched = job.dispatched ∧
    (unschedule (unschedule job).1).2 = false ∧
    (unschedule { job with dispatched := true }).2 = false := by
  rcases job with ⟨pid, tm, fr, c, dsp⟩
  cases c <;> cases dsp <;> simp [unschedule]

/-- `registerWrite` never touches the send-queue mapping. -/

theorem registerWrite_sendQueue (st : SrvState) (fd : ℕ) :
    (registerWrite st fd).sendQueue = st.sendQueue := by
  simp only [registerWrite]
  split <;> rfl

/-- Teardown keeps every other client in the active set. -/

theorem cleanUpClient_clients_mem (st : SrvState) (c c' : Client) (h : c' ≠ c) :
    c' ∈ (cleanUpClient st c false).clients ↔ c' ∈ st.clients := by
  simp only [cleanUpClient, if_neg Bool.false_ne_true]
  exact List.mem_erase_of_ne h

/-- Teardown keeps every other descriptor's queue entry. -/

theorem cleanUpClient_sendQueue_ne (st : SrvState) (c : Client) (fd : ℕ)
    (h : fd ≠ c.fileno) :
    (cleanUpClient st c false).sendQueue fd = st.sendQueue fd := by
  simp [cleanUpClient, qupdate, h]

/-- `writtenBytes` distributes over trace concatenation. -/

theorem writtenBytes_append :
    ∀ (a b : List Ev), writtenBytes (a ++ b) = writtenBytes a ++ writtenBytes b
  | [], b => by simp [writtenBytes]
  | e :: a, b => by
    cases e <;> simp [writtenBytes, writtenBytes_append a b]

/-- One write-readiness event that consumes the whole front message (with
a callback that does not raise): nothing propagates, exactly the front
message's remaining bytes are handed to the transport, and the message is
dequeued (the entry is deleted when the queue empties). -/

theorem nonblockWrite_spec_finished
    (st : SrvState) (c : Client) (top : SendMessage) (restQ : List SendMessage) (n : ℕ)
    (hq : st.sendQueue c.fileno = some (top :: restQ))
    (hn : top.data.length ≤ n) (hcb : top.callback ≠ some true) :
    (nonblockWrite st c (.ok n)).raised = none ∧
    writtenBytes (nonblockWrite st c (.ok n)).trace = top.data ∧
    (nonblockWrite st c (.ok n)).state.sendQueue c.fileno
      = (if restQ = [] then none else some restQ) := by
  have hdrop : top.data.drop n = [] := List.drop_eq_nil_of_le hn
  have htake : top.data.take n = top.data := List.take_of_length_le hn
  have hsq : sqGet st c.fileno = (top :: restQ, st) := by simp [sqGet, hq]
  rcases hcbv : top.callback with _ | b
  · by_cases hr : restQ = [] <;>
      simp [nonblockWrite, hsq, hdrop, htake, hcbv, nbwDequeue, hr, writtenBytes,
        registerRead, qupdate]
  · cases b
    · by_cases hr : restQ = [] <;>
        simp [nonblockWrite, hsq, hdrop, htake, hcbv, nbwDequeue, hr, writtenBytes,
          registerRead, qupdate]
    · exact absurd hcbv hcb

/-- One write-readiness event that consumes only part of the front
message: exactly one transport write of the front's remaining bytes
happens, and exactly the consumed prefix is stripped in place. -/

theorem nonblockWrite_spec_midway
    (st : SrvState) (c : Client) (top : SendMessage) (restQ : List SendMessage) (n : ℕ)
    (hq : st.sendQueue c.fileno = some (top :: restQ))
    (hrem : top.data.drop n ≠ []) :
    (nonblockWrite st c (.ok n)).raised = none ∧
    (nonblockWrite st c (.ok n)).trace = [.sent c.fileno (top.data.take n)] ∧
    (nonblockWrite st c (.ok n)).state.sendQueue c.fileno
      = some ({ top with data := top.data.drop n } :: restQ) := by
  have hsq : sqGet st c.fileno = (top :: restQ, st) := by simp [sqGet, hq]
  simp [nonblockWrite, hsq, hrem, qupdate]

/-- Conservation of bytes across any run of successful write-readiness
events (for a queue with no raising completion callbacks): the bytes
handed to the transport followed by the bytes still queued are exactly
the bytes that were queued at the start, in order. -/

theorem runWrites_conserves (c : Client) :
    ∀ (caps : List ℕ) (st : SrvState),
      (∀ m ∈ (st.sendQueue c.fileno).getD [], m.callback ≠ some true) →
      writtenBytes (runWrites c st (caps.map Except.ok)).2
          ++ remaining (runWrites c st (caps.map Except.ok)).1 c.fileno
        = remaining st c.fileno
  | [], st, h => by simp [runWrites, writtenBytes]
  | n :: more, st, h => by
    cases hq : st.sendQueue c.fileno with
    | none =>
      have hw : nonblockWrite st c (.ok n)
          = { state := { st with sendQueue := qupdate st.sendQueue c.fileno (some []) },
              trace := [], raised := some PyErr.indexError } := by
        simp [nonblockWrite, sqGet, hq]
      simp [runWrites, hw, writtenBytes, remaining, qupdate, hq]
    | some q =>
      cases q with
      | nil =>
        have hw : nonblockWrite st c (.ok n)
            = { state := st, trace := [], raised := some PyErr.indexError } := by
          simp [nonblockWrite, sqGet, hq]
        simp [runWrites, hw, writtenBytes, remaining, hq]
      | cons top restQ =>
        have hcb : top.callback ≠ some true := h top (by simp [hq])
        by_cases hrem : top.data.drop n = []
        · have hn : top.data.length ≤ n := by
            have := List.length_drop n top.data
            rw [hrem] at this
            simp at this
            omega
          obtain ⟨hra, htr, hst⟩ := nonblockWrite_spec_finished st c top restQ n hq hn hcb
          have hih := runWrites_conserves c more (nonblockWrite st c (.ok n)).state (by
            rw [hst]
            by_cases hr : restQ = []
            · simp [hr]
            · intro m hm
              rw [if_neg hr] at hm
              exact h m (by simp [hq]; exact Or.inr (by simpa using hm)))
          have hrw : runWrites c st ((n :: more).map Except.ok)
              = ((runWrites c (nonblockWrite st c (.ok n)).state (more.map Except.ok)).1,
                 (nonblockWrite st c (.ok n)).trace
                   ++ (runWrites c (nonblockWrite st c (.ok n)).state
                        (more.map Except.ok)).2) := by
            simp only [List.map_cons, runWrites, hra]
          rw [hrw]
          simp only [writtenBytes_append, htr]
          rw [List.append_assoc, hih]
          by_cases hr : restQ = []
          · simp [remaining, hst, hr, hq]
          · simp [remaining, hst, hr, hq]
        · obtain ⟨hra, htr, hst⟩ := nonblockWrite_spec_midway st c top restQ n hq hrem
          have hih := runWrites_conserves c more (nonblockWrite st c (.ok n)).state (by
            rw [hst]
            intro m hm
            simp at hm
            rcases hm with hm | hm
            · subst hm
              exact hcb
            · exact h m (by simp [hq]; exact Or.inr hm))
          have hrw : runWrites c st ((n :: more).map Except.ok)
              = ((runWrites c (nonblockWrite st c (.ok n)).state (more.map Except.ok)).1,
                 (nonblockWrite st c (.ok n)).trace
                   ++ (runWrites c (nonblockWrite st c (.ok n)).state
                        (more.map Except.ok)).2) := by
            simp only [List.map_cons, runWrites, hra]
          rw [hrw]
          simp only [writtenBytes_append, htr, writtenBytes]
          rw [List.append_assoc, hih]
          have key : List.take n top.data ++ (List.drop n top.data
              ++ (List.map SendMessage.data restQ).flatten)
              = top.data ++ (List.map SendMessage.data restQ).flatten := by
            rw [← List.append_assoc, List.take_append_drop]
          simp only [remaining, hst, hq, List.map_cons, List.flatten_cons, List.append_nil]
          simpa using key

/-! ### Claims about the I/O handlers -/

/-- **C4** (confirmed).  When a write-readiness event consumes the last
remaining bytes of the front message (`socket.send` accepts at least
`top.data` many bytes), the completion callback — if present — is invoked
exactly once, strictly after the bytes were handed to the transport and
strictly before the `popleft` that dequeues the message (the single-call
trace is exactly `sent; callbackRun; dequeued`, and a completed message
leaves the queue, so its callback cannot run again).  If the callback
raises, the connection is torn down (`IndexError`-free: the exception is
caught; the queue entry is removed and the client leaves the active set
as teardown prescribes) and no dequeue happens — the write handler
touches the queue no further. -/

theorem completion_callback_fires_once_between_send_and_dequeue
    (st : SrvState) (c : Client) (top : SendMessage) (restQ : List SendMessage) (n : ℕ)
    (hq : st.sendQueue c.fileno = some (top :: restQ))
    (hn : top.data.length ≤ n) :
    ((nonblockWrite st c (.ok n)).raised = none) ∧
    (top.callback = none →
      (nonblockWrite st c (.ok n)).trace
        = [.sent c.fileno top.data, .dequeued c.fileno] ∧
      (nonblockWrite st c (.ok n)).state.sendQueue c.fileno
        = (if restQ = [] then none else some restQ)) ∧
    (top.callback = some false →
      (nonblockWrite st c (.ok n)).trace
        = [.sent c.fileno top.data, .callbackRun c.fileno, .dequeued c.fileno] ∧
      (nonblockWrite st c (.ok n)).state.sendQueue c.fileno
        = (if restQ = [] then none else some restQ)) ∧
    (top.callback = some true →
      (nonblockWrite st c (.ok n)).trace
        = [.sent c.fileno top.data, .callbackRun c.fileno, .tornDown c.fileno] ∧
      Ev.dequeued c.fileno ∉ (nonblockWrite st c (.ok n)).trace ∧
      (nonblockWrite st c (.ok n)).state.sendQueue c.fileno = none ∧
      (nonblockWrite st c (.ok n)).state.clients = st.clients.erase c) := by
  have hdrop : top.data.drop n = [] := List.drop_eq_nil_of_le hn
  have htake : top.data.take n = top.data := List.take_of_length_le hn
  have hsq : sqGet st c.fileno = (top :: restQ, st) := by simp [sqGet, hq]
  refine ⟨?_, ?_, ?_, ?_⟩
  · rcases hcb : top.callback with _ | b
    · by_cases hr : restQ = [] <;>
        simp [nonblockWrite, hsq, hdrop, htake, hcb, nbwDequeue, hr]
    · cases b <;> by_cases hr : restQ = [] <;>
        simp [nonblockWrite, hsq, hdrop, htake, hcb, nbwDequeue, hr]
  · intro hcb
    by_cases hr : restQ = [] <;>
      simp [nonblockWrite, hsq, hdrop, htake, hcb, nbwDequeue, hr, registerRead, qupdate]
  · intro hcb
    by_cases hr : restQ = [] <;>
      simp [nonblockWrite, hsq, hdrop, htake, hcb, nbwDequeue, hr, registerRead, qupdate]
  · intro hcb
    simp [nonblockWrite, hsq, hdrop, htake, hcb, cleanUpClient, qupdate]

/-- Closed witness for C4: one queued two-byte message with a non-raising
callback; a write event accepting 5 bytes produces exactly the
`sent; callbackRun; dequeued` trace. -/

theorem completion_callback_fires_once_between_send_and_dequeue_witness :
    (nonblockWrite sampleQueued sampleClient (.ok 5)).trace
      = [.sent sampleClient.fileno [7, 8], .callbackRun sampleClient.fileno,
         .dequeued sampleClient.fileno] :=
  ((completion_callback_fires_once_between_send_and_dequeue sampleQueued sampleClient
    ⟨[7, 8], some false⟩ [] 5 rfl (by decide)).2.2.1 rfl).1

/-- **C5** (confirmed).  After `send(A); send(B)` on an idle connection,
any run of successful write-readiness events hands the transport a prefix
of `A ++ B` and leaves exactly the rest queued — so once the queue drains,
the bytes delivered are exactly `A ++ B` in order.  Each single event
performs exactly one transport write of the front message's remaining
bytes and strips exactly the consumed prefix
(`nonblockWrite_spec_midway` / `nonblockWrite_spec_finished`). -/

theorem send_send_delivers_fifo_concatenation
    (st : SrvState) (c : Client) (A B : List ℕ) (caps : List ℕ)
    (h : st.sendQueue c.fileno = none) :
    writtenBytes (runWrites c (send (send st c A none) c B none) (caps.map Except.ok)).2
        ++ remaining (runWrites c (send (send st c A none) c B none) (caps.map Except.ok)).1
            c.fileno
      = A ++ B ∧
    (remaining (runWrites c (send (send st c A none) c B none) (caps.map Except.ok)).1
        c.fileno = [] →
      writtenBytes (runWrites c (send (send st c A none) c B none) (caps.map Except.ok)).2
        = A ++ B) := by
  have hq : (send (send st c A none) c B none).sendQueue c.fileno
      = some [⟨A, none⟩, ⟨B, none⟩] := by
    simp [send, sqGet, h, registerWrite_sendQueue, qupdate]
  have hcbs : ∀ m ∈ (((send (send st c A none) c B none).sendQueue c.fileno)).getD [],
      m.callback ≠ some true := by
    rw [hq]
    intro m hm
    simp at hm
    rcases hm with hm | hm <;> subst hm <;> simp
  have hinv := runWrites_conserves c caps (send (send st c A none) c B none) hcbs
  have hrem0 : remaining (send (send st c A none) c B none) c.fileno = A ++ B := by
    simp [remaining, hq]
  rw [hrem0] at hinv
  refine ⟨hinv, fun h0 => ?_⟩
  rw [h0, List.append_nil] at hinv
  exact hinv

/-- Closed witness for C5: `send [1,2,3]; send [4,5]` on an idle
connection followed by three write events of 2, 2 and 2 accepted bytes
delivers all queued bytes plus leaves the remainder queued, summing to
`[1,2,3] ++ [4,5]`. -/

theorem send_send_delivers_fifo_concatenation_witness :
    writtenBytes (runWrites sampleClient
        (send (send sampleIdle sampleClient [1, 2, 3] none) sampleClient [4, 5] none)
        ([2, 2, 2].map Except.ok)).2
      ++ remaining (runWrites sampleClient
        (send (send sampleIdle sampleClient [1, 2, 3] none) sampleClient [4, 5] none)
        ([2, 2, 2].map Except.ok)).1 sampleClient.fileno
      = [1, 2, 3] ++ [4, 5] :=
  (send_send_delivers_fifo_concatenation sampleIdle sampleClient [1, 2, 3] [4, 5]
    [2, 2, 2] rfl).1

/-- **C6** (confirmed).  `_nonblock_read` never propagates an exception:
a transport error or a zero-length read tears down exactly that
connection (queue entry removed, client removed from the active set);
otherwise the bytes are delivered to the client's protocol handler, and a
raising handler is caught and leads to teardown of that connection only,
while a normal handler leaves the state untouched.  Other clients and
other descriptors' queues are unaffected in every case. -/

theorem read_failures_are_isolated_per_connection
    (st : SrvState) (c : Client) (recvRes : Except Unit (List ℕ)) (hr : Bool) :
    (nonblockRead st c recvRes hr).raised = none ∧
    ((recvRes = .error () ∨ recvRes = .ok []) →
      (nonblockRead st c recvRes hr).state.sendQueue c.fileno = none ∧
      (nonblockRead st c recvRes hr).state.clients = st.clients.erase c ∧
      Ev.tornDown c.fileno ∈ (nonblockRead st c recvRes hr).trace) ∧
    (∀ data, recvRes = .ok data → data ≠ [] →
      Ev.handlerDelivered c.fileno data ∈ (nonblockRead st c recvRes hr).trace ∧
      (hr = true → (nonblockRead st c recvRes hr).state.clients = st.clients.erase c) ∧
      (hr = false → (nonblockRead st c recvRes hr).state = st)) ∧
    (∀ c', c' ≠ c →
      (c' ∈ (nonblockRead st c recvRes hr).state.clients ↔ c' ∈ st.clients)) ∧
    (∀ fd, fd ≠ c.fileno →
      (nonblockRead st c recvRes hr).state.sendQueue fd = st.sendQueue fd) := by
  refine ⟨?_, ?_, ?_, ?_, ?_⟩
  · rcases recvRes with _ | data
    · simp [nonblockRead]
    · by_cases hd : data = [] <;> cases hr <;> simp [nonblockRead, hd]
  · intro h
    rcases h with h | h <;> subst h <;>
      simp [nonblockRead, cleanUpClient, qupdate]
  · intro data hres hd
    subst hres
    cases hr <;> simp [nonblockRead, hd, cleanUpClient, qupdate]
  · intro c' hc'
    rcases recvRes with _ | data
    · simp [nonblockRead, cleanUpClient_clients_mem st c c' hc']
    · by_cases hd : data = [] <;> cases hr <;>
        simp [nonblockRead, hd, cleanUpClient_clients_mem st c c' hc']
  · intro fd hfd
    rcases recvRes with _ | data
    · simp [nonblockRead, cleanUpClient_sendQueue_ne st c fd hfd]
    · by_cases hd : data = [] <;> cases hr <;>
        simp [nonblockRead, hd, cleanUpClient_sendQueue_ne st c fd hfd]

/-- Closed witness for C6: a read that delivers `[7]` to a handler that
raises still records the delivery in the trace (and, by the theorem,
propagates nothing). -/

theorem read_failures_are_isolated_per_connection_witness :
    Ev.handlerDelivered sampleClient.fileno [7]
      ∈ (nonblockRead sampleIdle sampleClient (.ok [7]) true).trace :=
  ((read_failures_are_isolated_per_connection sampleIdle sampleClient (.ok [7]) true).2.2.1
    [7] rfl (by decide)).1

/-- **C9** (confirmed, with the backend registration modelled from the
spec).  Accepting with a pending connection consumes exactly that one
connection, hands the factory the transport with blocking mode cleared,
adds the factory's client to the active set and returns it; the
send-queue mapping and the write-interest set are untouched (per the
spec's data model this is exactly READ-only interest for the new
client). -/

theorem accept_wraps_one_nonblocking_connection_with_read_interest
    (factory : Conn → Client) (st : SrvState) (conn : Conn) (rest : List Conn) :
    acceptConn factory st (conn :: rest)
      = some (factory { conn with blocking := false },
          { st with clients := st.clients ++ [factory { conn with blocking := false }] },
          rest) ∧
    factory { conn with blocking := false }
      ∈ ({ st with clients := st.clients ++ [factory { conn with blocking := false }] }
          : SrvState).clients :=
  ⟨rfl, by simp⟩

/-- **C10** (confirmed).  Invoking `_nonblock_write` on a connection with
no pending output — key absent or mapped to an empty deque — raises
`IndexError` from `queue[0]`, which the `except socket.error` clause does
not catch (no teardown happens, no bytes are sent), and the `defaultdict`
lookup first inserts an empty deque under the key, so afterwards the key
is present with an empty queue: absence-from-mapping and empty-queue are
no longer equivalent. -/

theorem write_without_pending_output_raises_uncaught_index_error
    (st : SrvState) (c : Client) (sendRes : Except Unit ℕ)
    (h : st.sendQueue c.fileno = none ∨ st.sendQueue c.fileno = some []) :
    (nonblockWrite st c sendRes).raised = some PyErr.indexError ∧
    (nonblockWrite st c sendRes).state.sendQueue c.fileno = some [] ∧
    (nonblockWrite st c sendRes).state.clients = st.clients ∧
    (nonblockWrite st c sendRes).trace = [] ∧
    ∀ fd, fd ≠ c.fileno →
      (nonblockWrite st c sendRes).state.sendQueue fd = st.sendQueue fd := by
  rcases h with h | h
  · refine ⟨?_, ?_, ?_, ?_, ?_⟩ <;>
      simp [nonblockWrite, sqGet, h, qupdate]
    intro fd hfd
    simp [hfd]
  · refine ⟨?_, ?_, ?_, ?_, ?_⟩ <;>
      simp [nonblockWrite, sqGet, h, qupdate]

/-- Closed witness for C10: a write-readiness event on the idle sample
connection propagates `IndexError`. -/

theorem write_without_pending_output_raises_uncaught_index_error_witness :
    (nonblockWrite sampleIdle sampleClient (.ok 4)).raised = some PyErr.indexError :=
  (write_without_pending_output_raises_uncaught_index_error sampleIdle sampleClient
    (.ok 4) (Or.inl rfl)).1

end ESS
